import Mathlib

/-!
Verification of the Smith-Wilson yield-curve fitting engine (simicd/smith-wilson-py).

The repository's checked-in sources are `main.py` (a caller of the `smithwilson`
library entry point `fit_smithwilson_rates`, together with the concrete EIOPA
input data) and `setup.py` (packaging metadata).  The library implementation
itself (converter, Wilson kernel, matrix assembly, calibration solve, curve
evaluation) is not among the checked-in sources, so those operations are
modelled here from the specification, over real arithmetic, with fallible
steps returning `Except`.
-/

open scoped Classical

namespace SmithWilson

/-- Modelled from the spec: the three error kinds of section 7 of the spec
(`ValidationError`, `DomainError`, `SingularMatrixError`); the library code
raising them is not under the checked-in sources. -/
inductive SWError where
  | validationError
  | domainError
  | singularMatrix
deriving DecidableEq

/-- Modelled from the spec (4.1): `rate_to_price(rate, maturity)` computes
`(1 + rate)^(-maturity)` under annual compounding and fails with
`DomainError` if `1 + rate <= 0` or `maturity <= 0`.  The converter code is
not under the checked-in sources. -/
noncomputable def rate_to_price (rate maturity : ℝ) : Except SWError ℝ :=
  if 1 + rate ≤ 0 ∨ maturity ≤ 0 then .error .domainError
  else .ok ((1 + rate) ^ (-maturity))

/-- Modelled from the spec (4.1): `price_to_rate(price, maturity)` computes
`price^(-1/maturity) - 1` and fails with `DomainError` if `price <= 0` or
`maturity <= 0`.  The converter code is not under the checked-in sources. -/
noncomputable def price_to_rate (price maturity : ℝ) : Except SWError ℝ :=
  if price ≤ 0 ∨ maturity ≤ 0 then .error .domainError
  else .ok (price ^ (-(1 / maturity)) - 1)

/-- Modelled from the spec (4.2): `mu = ln(1 + ufr)`, the continuously
compounded equivalent of the annually compounded ultimate forward rate. -/
noncomputable def mu (ufr : ℝ) : ℝ := Real.log (1 + ufr)

/-- Modelled from the spec (4.2): the Wilson kernel
`kernel(t, u, alpha, mu)` with `lo = min(t,u)`, `hi = max(t,u)`. -/
noncomputable def kernel (t u alpha m : ℝ) : ℝ :=
  let lo := min t u
  let hi := max t u
  Real.exp (-m * (t + u)) *
    (alpha * lo - 0.5 * Real.exp (-alpha * hi) *
      (Real.exp (alpha * lo) - Real.exp (-alpha * lo)))

/-- Modelled from the spec (4.3): the square kernel matrix over the observed
maturities, `M[i][j] = kernel(t_obs[i], t_obs[j], alpha, mu)`. -/
noncomputable def build_square_matrix {m : ℕ} (t_obs : Fin m → ℝ) (alpha mu : ℝ) :
    Matrix (Fin m) (Fin m) ℝ :=
  Matrix.of fun i j => kernel (t_obs i) (t_obs j) alpha mu

/-- Modelled from the spec (4.3): the rectangular kernel matrix between target
and observed maturities, `C[k][j] = kernel(t_target[k], t_obs[j], alpha, mu)`. -/
noncomputable def build_cross_matrix {n m : ℕ} (t_target : Fin n → ℝ)
    (t_obs : Fin m → ℝ) (alpha mu : ℝ) : Matrix (Fin n) (Fin m) ℝ :=
  Matrix.of fun k j => kernel (t_target k) (t_obs j) alpha mu

/-- Modelled from the spec (4.4): the asymptotic price vector
`a[i] = exp(-mu * t_obs[i])`. -/
noncomputable def aVec {m : ℕ} (t_obs : Fin m → ℝ) (mu : ℝ) : Fin m → ℝ :=
  fun i => Real.exp (-mu * t_obs i)

/-- Modelled from the spec (4.4): `solve(M, p_obs, t_obs, mu)` solves the
linear system `M · zeta = p_obs - a` for the calibration weights `zeta`, and
fails with `SingularMatrixError` when `M` cannot be inverted; no degraded
solution is ever returned.  The solver code is not under the checked-in
sources. -/
noncomputable def solve {m : ℕ} (M : Matrix (Fin m) (Fin m) ℝ)
    (p_obs t_obs : Fin m → ℝ) (mu : ℝ) : Except SWError (Fin m → ℝ) :=
  if IsUnit M.det then .ok (M⁻¹.mulVec (p_obs - aVec t_obs mu))
  else .error .singularMatrix

/-- Modelled from the spec (4.5 step 2 together with 4.1): the observed
discount factors `p_obs[i] = (1 + rates_obs[i])^(-t_obs[i])`. -/
noncomputable def pObs {m : ℕ} (rates_obs t_obs : Fin m → ℝ) : Fin m → ℝ :=
  fun i => (1 + rates_obs i) ^ (-(t_obs i))

/-- Modelled from the spec (4.5 step 6): the target discount factors
`p_target[k] = exp(-mu*t_target[k]) + sum_j C[k][j]*zeta[j]`. -/
noncomputable def pTarget {n m : ℕ} (t_target : Fin n → ℝ) (t_obs : Fin m → ℝ)
    (alpha mu : ℝ) (zeta : Fin m → ℝ) : Fin n → ℝ :=
  fun k => Real.exp (-mu * t_target k) +
    ∑ j, build_cross_matrix t_target t_obs alpha mu k j * zeta j

/-- Modelled from the spec (4.5 steps 2-8): the numeric pipeline of `fit`
after validation, over index-aligned vectors.  Step 2 converts the observed
rates to discount factors through the 4.1 converter, whose domain condition
`1 + rate > 0` and `maturity > 0` is checked first; steps 3-6 compute `mu`,
the kernel matrix, the calibration weights and the target discount factors;
step 7 converts back through `price_to_rate`, whose domain condition
`price > 0` and `maturity > 0` is checked; step 8 returns the rates aligned
with the target maturities. -/
noncomputable def fitCore {m n : ℕ} (rates_obs t_obs : Fin m → ℝ)
    (t_target : Fin n → ℝ) (alpha ufr : ℝ) : Except SWError (Fin n → ℝ) :=
  if ∀ i, 0 < 1 + rates_obs i ∧ 0 < t_obs i then
    (solve (build_square_matrix t_obs alpha (mu ufr))
        (pObs rates_obs t_obs) t_obs (mu ufr)).bind fun zeta =>
      if ∀ k, 0 < pTarget t_target t_obs alpha (mu ufr) zeta k ∧ 0 < t_target k then
        .ok fun k => pTarget t_target t_obs alpha (mu ufr) zeta k ^ (-(1 / t_target k)) - 1
      else .error .domainError
  else .error .domainError

/-- Modelled from the spec (4.5 step 1): the validation predicate — `t_obs`
and `t_target` strictly positive with no duplicates, matching lengths of
rates and observed maturities, and `alpha > 0`. -/
def validInput (rates_obs t_obs t_target : List ℝ) (alpha : ℝ) : Prop :=
  rates_obs.length = t_obs.length ∧
    (∀ x ∈ t_obs, 0 < x) ∧ t_obs.Nodup ∧
    (∀ x ∈ t_target, 0 < x) ∧ t_target.Nodup ∧ 0 < alpha

/-- Modelled from the spec (4.5): `fit(rates_obs, t_obs, t_target, alpha, ufr)`
validates its input before any numeric work and fails with `ValidationError`
on malformed input; on valid input it runs the numeric pipeline and returns
the fitted rate sequence aligned to `t_target`'s order.  The library code is
not under the checked-in sources. -/
noncomputable def fit (rates_obs t_obs t_target : List ℝ) (alpha ufr : ℝ) :
    Except SWError (List ℝ) :=
  if h : validInput rates_obs t_obs t_target alpha then
    (fitCore (fun i => rates_obs.get (Fin.cast h.1.symm i)) t_obs.get
      t_target.get alpha ufr).map List.ofFn
  else .error .validationError

/-- Modelled from the spec and `main.py`: the library entry point
`fit_smithwilson_rates(rates_obs, t_obs, t_target, alpha, ufr)` called by
`main.py`; its implementation is not under the checked-in sources and is the
curve evaluator `fit` of spec section 4.5. -/
noncomputable def fit_smithwilson_rates (rates_obs t_obs t_target : List ℝ)
    (alpha ufr : ℝ) : Except SWError (List ℝ) :=
  fit rates_obs t_obs t_target alpha ufr

/-- Helper: the Wilson kernel is symmetric in its two maturity arguments. -/
theorem kernel_comm (t u alpha m : ℝ) : kernel t u alpha m = kernel u t alpha m := by
  unfold kernel
  rw [min_comm, max_comm, add_comm t u]

/-- Helper: strict positivity of the Wilson kernel for positive maturities and
positive convergence speed, any real asymptotic rate. -/
theorem kernel_pos {t u alpha m : ℝ} (ht : 0 < t) (hu : 0 < u) (halpha : 0 < alpha) :
    0 < kernel t u alpha m := by
  unfold kernel
  have hlo : 0 < min t u := lt_min ht hu
  have hle : min t u ≤ max t u := min_le_max
  set lo := min t u
  set hi := max t u
  have hx : 0 < alpha * lo := mul_pos halpha hlo
  apply mul_pos (Real.exp_pos _)
  have hbound : Real.exp (-alpha * hi) * (Real.exp (alpha * lo) - Real.exp (-(alpha * lo)))
      ≤ Real.exp (-(alpha * lo)) * (Real.exp (alpha * lo) - Real.exp (-(alpha * lo))) := by
    apply mul_le_mul_of_nonneg_right
    · apply Real.exp_le_exp.2
      have := mul_le_mul_of_nonneg_left hle halpha.le
      linarith
    · have : Real.exp (-(alpha * lo)) ≤ Real.exp (alpha * lo) :=
        Real.exp_le_exp.2 (by linarith)
      linarith
  have hprod : Real.exp (-(alpha * lo)) * (Real.exp (alpha * lo) - Real.exp (-(alpha * lo)))
      = 1 - Real.exp (-(2 * (alpha * lo))) := by
    rw [mul_sub, ← Real.exp_add, ← Real.exp_add]
    norm_num
    ring_nf
  have hexp : 1 - 2 * (alpha * lo) < Real.exp (-(2 * (alpha * lo))) := by
    have h2 : (-(2 * (alpha * lo))) ≠ 0 := ne_of_lt (by nlinarith)
    have := Real.add_one_lt_exp h2
    linarith
  have hneg : -(alpha * lo) = -alpha * lo := by ring
  rw [← hneg]
  nlinarith [hbound, hprod, hexp]

/-- C3: the Wilson kernel evaluates to
`exp(-mu*(t+u)) * (alpha*min(t,u) - 0.5*exp(-alpha*max(t,u)) * (exp(alpha*min(t,u)) - exp(-alpha*min(t,u))))`,
where `mu ufr = ln(1 + ufr)` is the continuously compounded equivalent of the
annually compounded ultimate forward rate. -/
theorem kernel_formula (t u alpha ufr : ℝ) :
    mu ufr = Real.log (1 + ufr) ∧
    kernel t u alpha (mu ufr) =
      Real.exp (-(mu ufr) * (t + u)) *
        (alpha * min t u - 0.5 * Real.exp (-alpha * max t u) *
          (Real.exp (alpha * min t u) - Real.exp (-alpha * min t u))) :=
  ⟨rfl, rfl⟩

/-- C5: the Wilson kernel is symmetric in its two maturity arguments, and
consequently the square kernel matrix over the observed maturities is a
symmetric matrix. -/
theorem kernel_symm (t u alpha m : ℝ) :
    kernel t u alpha m = kernel u t alpha m ∧
    ∀ (mm : ℕ) (t_obs : Fin mm → ℝ),
      (build_square_matrix t_obs alpha m).transpose = build_square_matrix t_obs alpha m := by
  refine ⟨kernel_comm t u alpha m, fun mm t_obs => ?_⟩
  ext i j
  simp only [Matrix.transpose_apply, build_square_matrix, Matrix.of_apply]
  exact kernel_comm _ _ _ _

/-- C6: the Wilson kernel is strictly positive for `alpha > 0`, any real `mu`,
and maturities `t, u > 0`. -/
theorem kernel_strict_pos (t u alpha m : ℝ) (ht : 0 < t) (hu : 0 < u)
    (halpha : 0 < alpha) : 0 < kernel t u alpha m :=
  kernel_pos ht hu halpha

/-- Witness for C6 at `t = u = 1`, `alpha = 1`, `mu = 0`. -/
theorem kernel_strict_pos_witness : 0 < kernel 1 1 1 0 :=
  kernel_strict_pos 1 1 1 0 (by norm_num) (by norm_num) (by norm_num)

/-- C7: the converter is a pure pair of transforms with domain checks —
`rate_to_price` returns `(1+rate)^(-maturity)` and fails with `DomainError`
when `1 + rate <= 0` or `maturity <= 0`; `price_to_rate` returns
`price^(-1/maturity) - 1` and fails with `DomainError` when `price <= 0` or
`maturity <= 0`. -/
theorem converter_spec (rate price maturity : ℝ) :
    (0 < 1 + rate → 0 < maturity →
      rate_to_price rate maturity = .ok ((1 + rate) ^ (-maturity))) ∧
    (1 + rate ≤ 0 ∨ maturity ≤ 0 →
      rate_to_price rate maturity = .error .domainError) ∧
    (0 < price → 0 < maturity →
      price_to_rate price maturity = .ok (price ^ (-(1 / maturity)) - 1)) ∧
    (price ≤ 0 ∨ maturity ≤ 0 →
      price_to_rate price maturity = .error .domainError) := by
  refine ⟨fun h1 h2 => ?_, fun h => ?_, fun h1 h2 => ?_, fun h => ?_⟩
  · simp only [rate_to_price]
    rw [if_neg]
    push_neg
    exact ⟨h1, h2⟩
  · simp only [rate_to_price]
    rw [if_pos h]
  · simp only [price_to_rate]
    rw [if_neg]
    push_neg
    exact ⟨h1, h2⟩
  · simp only [price_to_rate]
    rw [if_pos h]

/-- Witness for C7 at `rate = 0`, `price = -1`, `maturity = 1`. -/
theorem converter_spec_witness :
    rate_to_price 0 1 = .ok ((1 + (0:ℝ)) ^ (-(1:ℝ))) ∧
    price_to_rate (-1) 1 = .error .domainError :=
  ⟨(converter_spec 0 (-1) 1).1 (by norm_num) (by norm_num),
   (converter_spec 0 (-1) 1).2.2.2 (Or.inl (by norm_num))⟩

/-- C4: `fit` fails with `ValidationError` — before any numeric work, so no
partial result is produced — whenever `t_obs` or `t_target` contains a
non-positive or duplicate value, or the rate and observed-maturity sequences
have different lengths, or `alpha <= 0`. -/
theorem fit_validation (rates_obs t_obs t_target : List ℝ) (alpha ufr : ℝ)
    (h : (∃ x ∈ t_obs, x ≤ 0) ∨ ¬t_obs.Nodup ∨ (∃ x ∈ t_target, x ≤ 0) ∨
      ¬t_target.Nodup ∨ rates_obs.length ≠ t_obs.length ∨ alpha ≤ 0) :
    fit rates_obs t_obs t_target alpha ufr = .error .validationError := by
  unfold fit
  rw [dif_neg]
  rintro ⟨hlen, hobs, hnodup, htar, htnodup, halpha⟩
  rcases h with ⟨x, hx, hle⟩ | h | ⟨x, hx, hle⟩ | h | h | h
  · exact absurd (hobs x hx) (not_lt.2 hle)
  · exact h hnodup
  · exact absurd (htar x hx) (not_lt.2 hle)
  · exact h htnodup
  · exact h hlen
  · exact absurd halpha (not_lt.2 h)

/-- Witness for C4 at a malformed input: `alpha = 0`. -/
theorem fit_validation_witness :
    fit [0] [1] [1] 0 0 = .error .validationError :=
  fit_validation [0] [1] [1] 0 0
    (Or.inr (Or.inr (Or.inr (Or.inr (Or.inr le_rfl)))))

/-- Helper: `Except.bind` on a success passes the value to the continuation. -/
theorem except_bind_ok {α β ε : Type} (a : α) (f : α → Except ε β) :
    (Except.ok a : Except ε α).bind f = f a := rfl

/-- Helper: `Except.bind` on an error propagates the error. -/
theorem except_bind_error {α β ε : Type} (e : ε) (f : α → Except ε β) :
    (Except.error e : Except ε α).bind f = Except.error e := rfl

/-- Helper: inversion of a successful `solve` — the kernel matrix was
invertible and the returned weights solve the linear system exactly. -/
theorem solve_ok_elim {m : ℕ} {M : Matrix (Fin m) (Fin m) ℝ}
    {p_obs t_obs : Fin m → ℝ} {μ : ℝ} {zeta : Fin m → ℝ}
    (h : solve M p_obs t_obs μ = .ok zeta) :
    IsUnit M.det ∧ zeta = M⁻¹.mulVec (p_obs - aVec t_obs μ) ∧
      M.mulVec zeta = p_obs - aVec t_obs μ := by
  unfold solve at h
  by_cases hd : IsUnit M.det
  · rw [if_pos hd] at h
    injection h with h
    refine ⟨hd, h.symm, ?_⟩
    rw [← h, Matrix.mulVec_mulVec, Matrix.mul_nonsing_inv _ hd, Matrix.one_mulVec]
  · rw [if_neg hd] at h
    cases h

/-- Helper: inversion of a successful `fitCore` run. -/
theorem fitCore_ok_elim {m n : ℕ} {rates_obs t_obs : Fin m → ℝ}
    {t_target : Fin n → ℝ} {alpha ufr : ℝ} {v : Fin n → ℝ}
    (h : fitCore rates_obs t_obs t_target alpha ufr = .ok v) :
    (∀ i, 0 < 1 + rates_obs i ∧ 0 < t_obs i) ∧
    ∃ zeta : Fin m → ℝ,
      solve (build_square_matrix t_obs alpha (mu ufr)) (pObs rates_obs t_obs)
          t_obs (mu ufr) = .ok zeta ∧
      (∀ k, 0 < pTarget t_target t_obs alpha (mu ufr) zeta k ∧ 0 < t_target k) ∧
      v = fun k => pTarget t_target t_obs alpha (mu ufr) zeta k ^ (-(1 / t_target k)) - 1 := by
  unfold fitCore at h
  by_cases h1 : ∀ i, 0 < 1 + rates_obs i ∧ 0 < t_obs i
  · rw [if_pos h1] at h
    refine ⟨h1, ?_⟩
    rcases hsolve : solve (build_square_matrix t_obs alpha (mu ufr))
        (pObs rates_obs t_obs) t_obs (mu ufr) with e | zeta
    · rw [hsolve, except_bind_error] at h
      cases h
    · rw [hsolve, except_bind_ok] at h
      by_cases h2 : ∀ k, 0 < pTarget t_target t_obs alpha (mu ufr) zeta k ∧ 0 < t_target k
      · rw [if_pos h2] at h
        injection h with h
        exact ⟨zeta, rfl, h2, h.symm⟩
      · rw [if_neg h2] at h
        cases h
  · rw [if_neg h1] at h
    cases h

/-- Helper: inversion of a successful `fit` call — validation passed and the
core pipeline produced the returned list. -/
theorem fit_ok_elim {rates_obs t_obs t_target : List ℝ} {alpha ufr : ℝ}
    {out : List ℝ} (h : fit rates_obs t_obs t_target alpha ufr = .ok out) :
    ∃ hv : validInput rates_obs t_obs t_target alpha,
      ∃ v : Fin t_target.length → ℝ,
        fitCore (fun i => rates_obs.get (Fin.cast hv.1.symm i)) t_obs.get
            t_target.get alpha ufr = .ok v ∧
        out = List.ofFn v := by
  unfold fit at h
  by_cases hv : validInput rates_obs t_obs t_target alpha
  · rw [dif_pos hv] at h
    rcases hcore : fitCore (fun i => rates_obs.get (Fin.cast hv.1.symm i))
        t_obs.get t_target.get alpha ufr with e | v
    · rw [hcore] at h
      cases h
    · rw [hcore] at h
      injection h with h
      exact ⟨hv, v, hcore, h.symm⟩
  · rw [dif_neg hv] at h
    cases h

/-- Helper: `Except.map` on a success maps the value. -/
theorem except_map_ok {α β ε : Type} (f : α → β) (a : α) :
    Except.map f (Except.ok a : Except ε α) = Except.ok (f a) := rfl

/-- Helper: `Except.map` on an error propagates the error. -/
theorem except_map_error {α β ε : Type} (f : α → β) (e : ε) :
    Except.map f (Except.error e : Except ε α) = Except.error e := rfl

/-- Helper: when the calibration weights solve the linear system exactly, the
target discount factor at a maturity equal to an observed maturity collapses
to the observed discount factor. -/
theorem pTarget_matching {m n : ℕ} {rates_obs t_obs : Fin m → ℝ}
    {t_target : Fin n → ℝ} {alpha μ : ℝ} {zeta : Fin m → ℝ}
    (hM : (build_square_matrix t_obs alpha μ).mulVec zeta =
      pObs rates_obs t_obs - aVec t_obs μ)
    {k : Fin n} {i : Fin m} (hki : t_target k = t_obs i) :
    pTarget t_target t_obs alpha μ zeta k = pObs rates_obs t_obs i := by
  have hMi := congrFun hM i
  simp only [Matrix.mulVec, Matrix.dotProduct, build_square_matrix,
    Matrix.of_apply, Pi.sub_apply, aVec] at hMi
  simp only [pTarget, build_cross_matrix, Matrix.of_apply, hki]
  linarith [hMi]

/-- Helper: converting a rate to a discount factor and back recovers the rate
for a positive accumulation factor and a positive maturity. -/
theorem rpow_roundtrip {r t : ℝ} (hr : 0 < 1 + r) (ht : 0 < t) :
    ((1 + r) ^ (-t)) ^ (-(1 / t)) - 1 = r := by
  rw [← Real.rpow_mul hr.le]
  have h1 : -t * -(1 / t) = 1 := by field_simp
  rw [h1, Real.rpow_one]
  ring

/-- Helper: a concrete successful run of the full pipeline — a single observed
maturity of one year at rate zero, fitted at that same maturity with
`alpha = 1` and `ufr = 0`, returns rate zero. -/
theorem fit_singleton : fit [0] [1] [1] 1 0 = .ok [0] := by
  have hv : validInput [0] [1] [1] 1 := by
    refine ⟨rfl, ?_, ?_, ?_, ?_, one_pos⟩
    · intro x hx
      simp only [List.mem_singleton] at hx
      subst hx
      norm_num
    · simp
    · intro x hx
      simp only [List.mem_singleton] at hx
      subst hx
      norm_num
    · simp
  unfold fit
  rw [dif_pos hv]
  have hrates : (fun i => ([0] : List ℝ).get (Fin.cast hv.1.symm i)) =
      fun _ : Fin ([1] : List ℝ).length => (0 : ℝ) := by
    funext i
    fin_cases i
    rfl
  have ht : ([1] : List ℝ).get = fun _ : Fin ([1] : List ℝ).length => (1 : ℝ) := by
    funext i
    fin_cases i
    rfl
  rw [hrates, ht]
  have hμ : mu 0 = 0 := by simp [mu]
  unfold fitCore
  have h1 : ∀ i : Fin ([1] : List ℝ).length,
      0 < 1 + (fun _ : Fin ([1] : List ℝ).length => (0 : ℝ)) i ∧
      0 < (fun _ : Fin ([1] : List ℝ).length => (1 : ℝ)) i := by
    intro i
    norm_num
  rw [if_pos h1]
  have hdet : IsUnit (build_square_matrix
      (fun _ : Fin ([1] : List ℝ).length => (1 : ℝ)) 1 (mu 0)).det := by
    rw [show (([1] : List ℝ).length) = 1 from rfl] at *
    rw [Matrix.det_fin_one]
    exact isUnit_iff_ne_zero.mpr
      (ne_of_gt (kernel_pos one_pos one_pos one_pos))
  unfold solve
  rw [if_pos hdet]
  have hpa : pObs (fun _ : Fin ([1] : List ℝ).length => (0 : ℝ))
        (fun _ : Fin ([1] : List ℝ).length => (1 : ℝ)) -
      aVec (fun _ : Fin ([1] : List ℝ).length => (1 : ℝ)) (mu 0) = 0 := by
    funext i
    simp [pObs, aVec, hμ]
  rw [hpa, Matrix.mulVec_zero, except_bind_ok]
  have hpt : ∀ k : Fin ([1] : List ℝ).length,
      pTarget (fun _ : Fin ([1] : List ℝ).length => (1 : ℝ))
        (fun _ : Fin ([1] : List ℝ).length => (1 : ℝ)) 1 (mu 0) 0 k = 1 := by
    intro k
    simp [pTarget, hμ]
  have h2 : ∀ k : Fin ([1] : List ℝ).length,
      0 < pTarget (fun _ : Fin ([1] : List ℝ).length => (1 : ℝ))
        (fun _ : Fin ([1] : List ℝ).length => (1 : ℝ)) 1 (mu 0) 0 k ∧
      0 < (fun _ : Fin ([1] : List ℝ).length => (1 : ℝ)) k := by
    intro k
    rw [hpt k]
    norm_num
  rw [if_pos h2, except_map_ok]
  congr 1
  have : ∀ k : Fin ([1] : List ℝ).length,
      pTarget (fun _ : Fin ([1] : List ℝ).length => (1 : ℝ))
        (fun _ : Fin ([1] : List ℝ).length => (1 : ℝ)) 1 (mu 0) 0 k ^
        (-(1 / (fun _ : Fin ([1] : List ℝ).length => (1 : ℝ)) k)) - 1 = 0 := by
    intro k
    rw [hpt k]
    norm_num
  rw [show (([1] : List ℝ).length) = 1 from rfl] at *
  simp only [List.ofFn_succ, List.ofFn_zero]
  rw [this 0]

/-- C2: a successful `fit` computes the calibration weights `zeta` as the exact
solution of the linear system `M · zeta = p_obs - a` over the observed
discount factors, evaluates the target discount factors as
`p_target[k] = exp(-mu*t_target[k]) + sum_j kernel(t_target[k], t_obs[j])*zeta[j]`,
and returns the elementwise spot-rate conversion of `p_target`, aligned to
`t_target`'s order. -/
theorem fit_pipeline (rates_obs t_obs t_target : List ℝ) (alpha ufr : ℝ)
    (out : List ℝ) (h : fit rates_obs t_obs t_target alpha ufr = .ok out) :
    ∃ (hlen : rates_obs.length = t_obs.length) (zeta : Fin t_obs.length → ℝ),
      (build_square_matrix t_obs.get alpha (mu ufr)).mulVec zeta =
        pObs (fun i => rates_obs.get (Fin.cast hlen.symm i)) t_obs.get -
          aVec t_obs.get (mu ufr) ∧
      ∃ hl : out.length = t_target.length,
        ∀ k : Fin t_target.length,
          out.get (Fin.cast hl.symm k) =
            pTarget t_target.get t_obs.get alpha (mu ufr) zeta k ^
              (-(1 / t_target.get k)) - 1 := by
  obtain ⟨hv, v, hcore, hout⟩ := fit_ok_elim h
  obtain ⟨hdom, zeta, hsolve, hpos, hveq⟩ := fitCore_ok_elim hcore
  obtain ⟨hdet, hzdef, hMz⟩ := solve_ok_elim hsolve
  subst hout
  refine ⟨hv.1, zeta, hMz, List.length_ofFn v, fun k => ?_⟩
  rw [List.get_ofFn]
  have hc : Fin.cast (by simp) (Fin.cast (List.length_ofFn v).symm k) = k :=
    Fin.ext (by simp)
  rw [hc]
  simp only [hveq]

/-- Witness for C2 at the concrete single-point run of `fit_singleton`. -/
theorem fit_pipeline_witness :
    ∃ (hlen : ([0] : List ℝ).length = ([1] : List ℝ).length)
      (zeta : Fin ([1] : List ℝ).length → ℝ),
      (build_square_matrix ([1] : List ℝ).get 1 (mu 0)).mulVec zeta =
        pObs (fun i => ([0] : List ℝ).get (Fin.cast hlen.symm i))
          ([1] : List ℝ).get - aVec ([1] : List ℝ).get (mu 0) ∧
      ∃ hl : ([0] : List ℝ).length = ([1] : List ℝ).length,
        ∀ k : Fin ([1] : List ℝ).length,
          ([0] : List ℝ).get (Fin.cast hl.symm k) =
            pTarget ([1] : List ℝ).get ([1] : List ℝ).get 1 (mu 0) zeta k ^
              (-(1 / ([1] : List ℝ).get k)) - 1 :=
  fit_pipeline [0] [1] [1] 1 0 [0] fit_singleton

/-- C1: exact recovery — whenever `fit` succeeds, every target maturity that
equals an observed maturity is assigned exactly the corresponding observed
input rate (over real arithmetic), and in particular fitting with
`t_target = t_obs` returns `rates_obs` itself. -/
theorem fit_exact_recovery (rates_obs t_obs t_target : List ℝ) (alpha ufr : ℝ)
    (out : List ℝ) (h : fit rates_obs t_obs t_target alpha ufr = .ok out) :
    (∀ (k i : ℕ) (hk : k < t_target.length) (hi : i < t_obs.length),
      t_target.get ⟨k, hk⟩ = t_obs.get ⟨i, hi⟩ →
      out.getD k 0 = rates_obs.getD i 0) ∧
    (t_target = t_obs → out = rates_obs) := by
  obtain ⟨hv, v, hcore, hout⟩ := fit_ok_elim h
  obtain ⟨hdom, zeta, hsolve, hpos, hveq⟩ := fitCore_ok_elim hcore
  obtain ⟨hdet, hzdef, hMz⟩ := solve_ok_elim hsolve
  subst hout
  have hmain : ∀ (k i : ℕ) (hk : k < t_target.length) (hi : i < t_obs.length),
      t_target.get ⟨k, hk⟩ = t_obs.get ⟨i, hi⟩ →
      (List.ofFn v).getD k 0 = rates_obs.getD i 0 := by
    intro k i hk hi hki
    have hik : i < rates_obs.length := by
      rw [hv.1]
      exact hi
    have hgk : (List.ofFn v).getD k 0 = v ⟨k, hk⟩ := by
      rw [List.getD_eq_getElem _ _ (by simpa using hk), List.getElem_ofFn]
    have hgi : rates_obs.getD i 0 =
        rates_obs.get (Fin.cast hv.1.symm ⟨i, hi⟩) := by
      rw [List.getD_eq_getElem _ _ hik]
      simp [List.get_eq_getElem]
    have hr : 0 < 1 + rates_obs.get (Fin.cast hv.1.symm ⟨i, hi⟩) :=
      (hdom ⟨i, hi⟩).1
    have ht : 0 < t_obs.get ⟨i, hi⟩ := (hdom ⟨i, hi⟩).2
    have hrec := pTarget_matching hMz hki
    rw [hgk, hgi]
    simp only [hveq]
    rw [hrec, hki]
    simp only [pObs]
    exact rpow_roundtrip hr ht
  refine ⟨hmain, fun hEq => ?_⟩
  subst hEq
  apply List.ext_getElem
  · rw [List.length_ofFn, hv.1]
  · intro n h1 h2
    have hn : n < t_target.length := by simpa using h1
    have hmm := hmain n n hn hn rfl
    rwa [List.getD_eq_getElem _ _ (by simpa using hn),
      List.getD_eq_getElem _ _ h2] at hmm

/-- Witness for C1 at the concrete single-point run of `fit_singleton`. -/
theorem fit_exact_recovery_witness :
    ([0] : List ℝ).getD 0 0 = ([0] : List ℝ).getD 0 0 ∧ ([0] : List ℝ) = [0] :=
  ⟨(fit_exact_recovery [0] [1] [1] 1 0 [0] fit_singleton).1 0 0 (by simp)
      (by simp) rfl,
   (fit_exact_recovery [0] [1] [1] 1 0 [0] fit_singleton).2 rfl⟩

/-- C8: when the observation kernel matrix is not invertible the calibration
solve fails with `SingularMatrixError` and never returns degraded weights;
consequently a `fit` call on validated input whose kernel matrix is not
invertible fails as a whole with `SingularMatrixError` and yields no partial
result. -/
theorem solve_singular {m : ℕ} (M : Matrix (Fin m) (Fin m) ℝ)
    (p_obs t_obs : Fin m → ℝ) (μ : ℝ) (h : ¬ IsUnit M.det) :
    solve M p_obs t_obs μ = .error .singularMatrix ∧
    (∀ (rates t_o t_t : List ℝ) (alpha ufr : ℝ),
      validInput rates t_o t_t alpha → (∀ x ∈ rates, 0 < 1 + x) →
      ¬ IsUnit (build_square_matrix t_o.get alpha (mu ufr)).det →
      fit rates t_o t_t alpha ufr = .error .singularMatrix) := by
  constructor
  · unfold solve
    rw [if_neg h]
  · intro rates t_o t_t alpha ufr hv hr hdet
    unfold fit
    rw [dif_pos hv]
    unfold fitCore
    have h1 : ∀ i : Fin t_o.length,
        0 < 1 + rates.get (Fin.cast hv.1.symm i) ∧ 0 < t_o.get i := by
      intro i
      constructor
      · apply hr
        rw [List.get_eq_getElem]
        exact List.getElem_mem _
      · apply hv.2.1
        rw [List.get_eq_getElem]
        exact List.getElem_mem _
    rw [if_pos h1]
    unfold solve
    rw [if_neg hdet, except_bind_error, except_map_error]

/-- Witness for C8 at the singular one-by-one zero matrix. -/
theorem solve_singular_witness :
    solve (0 : Matrix (Fin 1) (Fin 1) ℝ) 0 0 0 = .error .singularMatrix :=
  (solve_singular 0 0 0 0 (by simp [Matrix.det_fin_one])).1

/-- The Switzerland EIOPA spot-rate curve hard-coded in `main.py` (25 annual
maturities, LLP 25 years), used as `rates_obs`. -/
def eiopa_rates : List ℝ :=
  [-0.00803, -0.00814, -0.00778, -0.00725, -0.00652, -0.00565, -0.0048,
   -0.00391, -0.00313, -0.00214, -0.0014, -0.00067, -0.00008, 0.00051,
   0.00108, 0.00157, 0.00197, 0.00228, 0.0025, 0.00264, 0.00271, 0.00274,
   0.0028, 0.00291, 0.00309]

/-- The observed maturities `1.0, 2.0, ..., 25.0` from `main.py`. -/
noncomputable def eiopa_terms : List ℝ :=
  List.ofFn fun y : Fin 25 => ((y : ℕ) : ℝ) + 1

/-- The target maturities `1.0, 2.0, ..., 150.0` from `main.py`. -/
noncomputable def eiopa_terms_target : List ℝ :=
  List.ofFn fun y : Fin 150 => ((y : ℕ) : ℝ) + 1

/-- The ultimate forward rate from `main.py`. -/
def eiopa_ufr : ℝ := 0.029

/-- The convergence-speed parameter from `main.py`. -/
def eiopa_alpha : ℝ := 0.128562

/-- Helper: the post-validation pipeline never produces a `ValidationError`:
its only failure modes are `DomainError` and `SingularMatrixError`. -/
theorem fitCore_no_validation_error {m n : ℕ} (rates_obs t_obs : Fin m → ℝ)
    (t_target : Fin n → ℝ) (alpha ufr : ℝ) :
    fitCore rates_obs t_obs t_target alpha ufr ≠ .error .validationError := by
  unfold fitCore
  by_cases h1 : ∀ i, 0 < 1 + rates_obs i ∧ 0 < t_obs i
  · rw [if_pos h1]
    rcases hsolve : solve (build_square_matrix t_obs alpha (mu ufr))
        (pObs rates_obs t_obs) t_obs (mu ufr) with e | zeta
    · have he : e = .singularMatrix := by
        unfold solve at hsolve
        by_cases hd : IsUnit (build_square_matrix t_obs alpha (mu ufr)).det
        · rw [if_pos hd] at hsolve
          cases hsolve
        · rw [if_neg hd] at hsolve
          injection hsolve with hsolve
          exact hsolve.symm
      rw [except_bind_error, he]
      intro hc
      injection hc with hc
      cases hc
    · rw [except_bind_ok]
      by_cases h2 : ∀ k, 0 < pTarget t_target t_obs alpha (mu ufr) zeta k ∧
          0 < t_target k
      · rw [if_pos h2]
        intro hc
        cases hc
      · rw [if_neg h2]
        intro hc
        injection hc with hc
        cases hc
  · rw [if_neg h1]
    intro hc
    injection hc with hc
    cases hc

/-- Helper: the maturity ladders `1, 2, ..., N` are injective enumerations. -/
theorem ladder_injective (N : ℕ) :
    Function.Injective (fun y : Fin N => ((y : ℕ) : ℝ) + 1) := by
  intro a b hab
  simp only [add_left_inj, Nat.cast_inj] at hab
  exact Fin.ext hab

/-- Helper: matrix-vector product over a single index. -/
theorem mulVec_fin_one (A : Matrix (Fin 1) (Fin 1) ℝ) (v : Fin 1 → ℝ) :
    A.mulVec v 0 = A 0 0 * v 0 := by
  simp [Matrix.mulVec, Matrix.dotProduct]

/-- Helper: for a single observed maturity whose observed discount factor
exceeds the asymptotic one, the whole post-validation pipeline succeeds: the
one-by-one kernel matrix is invertible by strict kernel positivity, the single
calibration weight is positive, and hence every target discount factor is a
sum of two positive terms. -/
theorem fitCore_one_obs (r t : ℝ) {n : ℕ} (tt : Fin n → ℝ) (alpha ufr : ℝ)
    (hr : 0 < 1 + r) (ht : 0 < t) (halpha : 0 < alpha)
    (htar : ∀ k, 0 < tt k)
    (hd : Real.exp (-(mu ufr) * t) < (1 + r) ^ (-t)) :
    ∃ v : Fin n → ℝ,
      fitCore (fun _ : Fin 1 => r) (fun _ : Fin 1 => t) tt alpha ufr = .ok v := by
  unfold fitCore
  have h1 : ∀ i : Fin 1, 0 < 1 + (fun _ : Fin 1 => r) i ∧
      0 < (fun _ : Fin 1 => t) i := fun i => ⟨hr, ht⟩
  rw [if_pos h1]
  have hk : 0 < kernel t t alpha (mu ufr) := kernel_pos ht ht halpha
  have hdet : IsUnit (build_square_matrix (fun _ : Fin 1 => t) alpha
      (mu ufr)).det := by
    rw [Matrix.det_fin_one]
    exact isUnit_iff_ne_zero.mpr (ne_of_gt hk)
  unfold solve
  rw [if_pos hdet, except_bind_ok]
  have hMz : (build_square_matrix (fun _ : Fin 1 => t) alpha (mu ufr)).mulVec
      ((build_square_matrix (fun _ : Fin 1 => t) alpha (mu ufr))⁻¹.mulVec
        (pObs (fun _ : Fin 1 => r) (fun _ : Fin 1 => t) -
          aVec (fun _ : Fin 1 => t) (mu ufr))) =
      pObs (fun _ : Fin 1 => r) (fun _ : Fin 1 => t) -
        aVec (fun _ : Fin 1 => t) (mu ufr) := by
    rw [Matrix.mulVec_mulVec, Matrix.mul_nonsing_inv _ hdet, Matrix.one_mulVec]
  have hd0 : 0 < (pObs (fun _ : Fin 1 => r) (fun _ : Fin 1 => t) -
      aVec (fun _ : Fin 1 => t) (mu ufr)) 0 := by
    simp only [Pi.sub_apply, pObs, aVec]
    linarith
  have hz0 : 0 < ((build_square_matrix (fun _ : Fin 1 => t) alpha
      (mu ufr))⁻¹.mulVec (pObs (fun _ : Fin 1 => r) (fun _ : Fin 1 => t) -
        aVec (fun _ : Fin 1 => t) (mu ufr))) 0 := by
    have h00 := congrFun hMz 0
    rw [mulVec_fin_one] at h00
    have hM00 : 0 < build_square_matrix (fun _ : Fin 1 => t) alpha
        (mu ufr) 0 0 := hk
    nlinarith [hd0, hM00, h00]
  have h2 : ∀ k, 0 < pTarget tt (fun _ : Fin 1 => t) alpha (mu ufr)
      ((build_square_matrix (fun _ : Fin 1 => t) alpha (mu ufr))⁻¹.mulVec
        (pObs (fun _ : Fin 1 => r) (fun _ : Fin 1 => t) -
          aVec (fun _ : Fin 1 => t) (mu ufr))) k ∧ 0 < tt k := by
    intro k
    refine ⟨?_, htar k⟩
    have hkk : 0 < kernel (tt k) t alpha (mu ufr) :=
      kernel_pos (htar k) ht halpha
    have hexp := Real.exp_pos (-(mu ufr) * tt k)
    have hsum : ∑ j, build_cross_matrix tt (fun _ : Fin 1 => t) alpha
        (mu ufr) k j *
        ((build_square_matrix (fun _ : Fin 1 => t) alpha (mu ufr))⁻¹.mulVec
          (pObs (fun _ : Fin 1 => r) (fun _ : Fin 1 => t) -
            aVec (fun _ : Fin 1 => t) (mu ufr))) j =
        kernel (tt k) t alpha (mu ufr) *
        ((build_square_matrix (fun _ : Fin 1 => t) alpha (mu ufr))⁻¹.mulVec
          (pObs (fun _ : Fin 1 => r) (fun _ : Fin 1 => t) -
            aVec (fun _ : Fin 1 => t) (mu ufr))) 0 := by
      rw [Fin.sum_univ_one]
      rfl
    simp only [pTarget]
    rw [hsum]
    linarith [mul_pos hkk hz0]
  rw [if_pos h2]
  exact ⟨_, rfl⟩

/-- Helper: a full successful `fit` call on a one-point observed curve — any
positive maturity `t` with accumulation factor `0 < 1 + r` whose observed
discount factor exceeds the asymptotic one, and any valid target ladder —
returns a complete fitted curve, one rate per target maturity. -/
theorem fit_one_obs_success (r t : ℝ) (t_target : List ℝ) (alpha ufr : ℝ)
    (hr : 0 < 1 + r) (ht : 0 < t) (halpha : 0 < alpha)
    (htar : ∀ x ∈ t_target, 0 < x) (hnodup : t_target.Nodup)
    (hd : Real.exp (-(mu ufr) * t) < (1 + r) ^ (-t)) :
    ∃ out, fit [r] [t] t_target alpha ufr = .ok out ∧
      out.length = t_target.length := by
  have hvalid : validInput [r] [t] t_target alpha := by
    refine ⟨rfl, ?_, by simp, htar, hnodup, halpha⟩
    intro x hx
    simp only [List.mem_singleton] at hx
    exact hx ▸ ht
  obtain ⟨v, hcore⟩ := fitCore_one_obs r t t_target.get alpha ufr hr ht halpha
    (fun k => htar _ (by rw [List.get_eq_getElem]; exact List.getElem_mem _)) hd
  refine ⟨List.ofFn v, ?_, List.length_ofFn v⟩
  unfold fit
  rw [dif_pos hvalid]
  have hrates : (fun i => ([r] : List ℝ).get (Fin.cast hvalid.1.symm i)) =
      fun _ : Fin ([t] : List ℝ).length => r := by
    funext i
    fin_cases i
    rfl
  have ht1 : ([t] : List ℝ).get =
      fun _ : Fin ([t] : List ℝ).length => t := by
    funext i
    fin_cases i
    rfl
  rw [hrates, ht1, show (([t] : List ℝ).length) = 1 from rfl, hcore,
    except_map_ok]

/-- C10: `fit_smithwilson_rates` accepts the negative EIOPA observed rates of
`main.py` — the curve begins at `-0.00803` and every rate satisfies
`1 + rate > 0` — the input passes validation (negative rates are not
rejected), the call never fails with `ValidationError`, and any curve it
returns is a complete one covering all 150 target maturities; moreover, with
the same EIOPA `alpha`, `ufr` and 150-point target ladder, a call observing
the curve's first, negative rate `-0.00803` at maturity one provably succeeds
end to end and returns a complete 150-point fitted curve. -/
theorem fit_accepts_negative_rates :
    eiopa_rates.getD 0 0 = -0.00803 ∧ eiopa_rates.getD 0 0 < 0 ∧
    (∀ x ∈ eiopa_rates, 0 < 1 + x) ∧
    eiopa_terms_target.length = 150 ∧
    validInput eiopa_rates eiopa_terms eiopa_terms_target eiopa_alpha ∧
    fit_smithwilson_rates eiopa_rates eiopa_terms eiopa_terms_target
      eiopa_alpha eiopa_ufr ≠ .error .validationError ∧
    (∀ out, fit_smithwilson_rates eiopa_rates eiopa_terms eiopa_terms_target
      eiopa_alpha eiopa_ufr = .ok out → out.length = 150) ∧
    (∃ out, fit_smithwilson_rates [-0.00803] [1] eiopa_terms_target
      eiopa_alpha eiopa_ufr = .ok out ∧ out.length = 150) := by
  have hneg : ∀ x ∈ eiopa_rates, 0 < 1 + x := by
    intro x hx
    fin_cases hx <;> norm_num
  have htarpos : ∀ x ∈ eiopa_terms_target, 0 < x := by
    intro x hx
    rw [eiopa_terms_target, List.mem_ofFn] at hx
    obtain ⟨i, rfl⟩ := hx
    positivity
  have htarnodup : eiopa_terms_target.Nodup := by
    rw [eiopa_terms_target]
    exact List.nodup_ofFn.mpr (ladder_injective 150)
  have halphapos : (0 : ℝ) < eiopa_alpha := by
    rw [eiopa_alpha]
    norm_num
  have hvalid : validInput eiopa_rates eiopa_terms eiopa_terms_target
      eiopa_alpha := by
    refine ⟨?_, ?_, ?_, htarpos, htarnodup, halphapos⟩
    · simp [eiopa_rates, eiopa_terms]
    · intro x hx
      rw [eiopa_terms, List.mem_ofFn] at hx
      obtain ⟨i, rfl⟩ := hx
      positivity
    · rw [eiopa_terms]
      exact List.nodup_ofFn.mpr (ladder_injective 25)
  have hlen150 : eiopa_terms_target.length = 150 := by
    rw [eiopa_terms_target]
    exact List.length_ofFn _
  refine ⟨by simp [eiopa_rates], by simp [eiopa_rates]; norm_num, hneg,
    hlen150, hvalid, ?_, ?_, ?_⟩
  · unfold fit_smithwilson_rates fit
    rw [dif_pos hvalid]
    rcases hcore : fitCore
        (fun i => eiopa_rates.get (Fin.cast hvalid.1.symm i)) eiopa_terms.get
        eiopa_terms_target.get eiopa_alpha eiopa_ufr with e | v
    · rw [except_map_error]
      intro hc
      injection hc with hc
      subst hc
      exact fitCore_no_validation_error _ _ _ _ _ hcore
    · rw [except_map_ok]
      intro hc
      cases hc
  · intro out hout
    obtain ⟨hv', v, hcore, houteq⟩ := fit_ok_elim hout
    rw [houteq, List.length_ofFn, eiopa_terms_target]
    exact List.length_ofFn _
  · have hd : Real.exp (-(mu eiopa_ufr) * 1) <
        (1 + (-0.00803 : ℝ)) ^ (-(1 : ℝ)) := by
      have h1 : Real.exp (-(mu eiopa_ufr) * 1) = (1.029 : ℝ)⁻¹ := by
        rw [mul_one, mu, eiopa_ufr, Real.exp_neg,
          Real.exp_log (by norm_num : (0 : ℝ) < 1 + 0.029)]
        norm_num
      have h2 : ((1 : ℝ) + -0.00803) ^ (-(1 : ℝ)) = (0.99197 : ℝ)⁻¹ := by
        rw [show ((1 : ℝ) + -0.00803) = 0.99197 by norm_num,
          Real.rpow_neg_one]
      rw [h1, h2]
      norm_num
    obtain ⟨out, hout, hlenout⟩ := fit_one_obs_success (-0.00803) 1
      eiopa_terms_target eiopa_alpha eiopa_ufr (by norm_num) one_pos
      halphapos htarpos htarnodup hd
    exact ⟨out, hout, by rw [hlenout]; exact hlen150⟩

end SmithWilson
